import Mathlib

/-!
Verification development for the scx common BPF primitive layer
(`src/scheds/include/scx/common.bpf.h`).

The header contains two pieces of executable logic, the `MEMBER_VPTR` and
`ARRAY_ELEM_PTR` bounds-checking macros, which are embedded here directly from
their inline-asm bodies.  The remaining primitives (dispatch queues, cpumask
operations, idle-CPU claiming, fatal-error reporting) are declared in the
header as external kernel functions (`__ksym`); their behaviour is modelled
from the specification, as marked on each definition.
-/

/-- Size of the unsigned 64-bit value space; BPF registers and the
address arithmetic in the macros are `u64`, i.e. arithmetic modulo `U64`. -/
def U64 : Nat := 2 ^ 64

/-- Embedding of the `MEMBER_VPTR(base, member)` macro.  `base` is the object
address `(u64)&(base)`, `off` the computed member offset
`(u64)&((base) member) - (u64)&(base)` (a `u64`, hence reduced mod `U64`),
`szBase = sizeof(base)` and `szMem = sizeof((base) member)`.  The inline asm
is: `if off <= szBase - szMem` then the result is `off + base` (mod 2^64),
otherwise the register is zeroed, i.e. the macro evaluates to NULL. -/
def MEMBER_VPTR (base off szBase szMem : Nat) : Nat :=
  let addr := off % U64
  if addr ≤ szBase - szMem then (addr + base) % U64 else 0

/-- Embedding of the `ARRAY_ELEM_PTR(arr, i, n)` macro.  `base` is
`(u64)arr`, `i` the index, `n` the runtime element count and `sz`
`sizeof(arr[0])`.  The computed offset is `(u64)&(arr[i]) - (u64)arr`,
i.e. `i * sz` in `u64` arithmetic, and the bound register is
`sizeof(arr[0]) * ((n) - 1)` where the subtraction wraps in `u64`
(so `n = 0` yields a huge bound). -/
def ARRAY_ELEM_PTR (base i n sz : Nat) : Nat :=
  let addr := (i * sz) % U64
  let mx := (sz * ((n + (U64 - 1)) % U64)) % U64
  if addr ≤ mx then (addr + base) % U64 else 0

/-- The claim C1: `MEMBER_VPTR` fails closed.  For an object at address
`base > 0` of size `szBase` that fits in the address space, and a member of
size `szMem ≤ szBase` (enforced by the macro's `_Static_assert`) whose
computed `u64` offset is `off`: the macro yields NULL whenever
`off > szBase - szMem`, yields exactly the member's address `base + off`
otherwise, and any non-NULL result lies entirely inside the base object's
extent `[base, base + szBase)`. -/
theorem MEMBER_VPTR_fails_closed (base off szBase szMem : Nat)
    (hmem : szMem ≤ szBase) (hfit : base + szBase < U64)
    (hoff : off < U64) :
    (szBase - szMem < off → MEMBER_VPTR base off szBase szMem = 0) ∧
    (off ≤ szBase - szMem → MEMBER_VPTR base off szBase szMem = base + off) ∧
    (MEMBER_VPTR base off szBase szMem ≠ 0 →
      base ≤ MEMBER_VPTR base off szBase szMem ∧
      MEMBER_VPTR base off szBase szMem + szMem ≤ base + szBase) := by
  have hmod : off % U64 = off := Nat.mod_eq_of_lt hoff
  refine ⟨?_, ?_, ?_⟩
  · intro hgt
    unfold MEMBER_VPTR
    simp only [hmod]
    rw [if_neg (by omega)]
  · intro hle
    unfold MEMBER_VPTR
    simp only [hmod]
    rw [if_pos hle, Nat.mod_eq_of_lt (by omega), Nat.add_comm]
  · intro hne
    unfold MEMBER_VPTR at hne ⊢
    simp only [hmod] at hne ⊢
    by_cases hle : off ≤ szBase - szMem
    · rw [if_pos hle] at hne ⊢
      rw [Nat.mod_eq_of_lt (by omega)] at hne ⊢
      omega
    · rw [if_neg hle] at hne
      exact absurd rfl hne

/-- Witness for C1 at the concrete instance `base = 4096`, `szBase = 16`,
`szMem = 4`: the in-range offset `8` yields the member address `4104`, the
out-of-range offset `13` yields NULL. -/
theorem MEMBER_VPTR_fails_closed_witness :
    (4 ≤ 16 ∧ 4096 + 16 < U64 ∧ 8 < U64 ∧ 13 < U64) ∧
    MEMBER_VPTR 4096 8 16 4 = 4096 + 8 ∧
    MEMBER_VPTR 4096 13 16 4 = 0 := by
  refine ⟨⟨by decide, by decide, by decide, by decide⟩, ?_, ?_⟩
  · exact (MEMBER_VPTR_fails_closed 4096 8 16 4 (by decide) (by decide)
      (by decide)).2.1 (by decide)
  · exact (MEMBER_VPTR_fails_closed 4096 13 16 4 (by decide) (by decide)
      (by decide)).1 (by decide)

/-- The claim C10: `ARRAY_ELEM_PTR` fails closed given `n ≥ 1`.  For an array
at address `base > 0` with `n ≥ 1` elements of size `sz > 0` that fits in the
address space: index `i ≤ n - 1` yields exactly the address of `arr[i]`,
namely `base + i * sz`, and whenever the computed `u64` byte offset of
`arr[i]` exceeds `sz * (n - 1)` the macro yields NULL.  The bound
`sizeof(arr[0]) * ((n) - 1)` is computed in unsigned 64-bit arithmetic, so at
`n = 0` the subtraction wraps and the check passes for out-of-range indices:
the final conjunct shows the concrete instance `base = 4096`, `i = 3`,
`n = 0`, `sz = 8` evaluating to a non-NULL pointer. -/
theorem ARRAY_ELEM_PTR_fails_closed (base i n sz : Nat)
    (hn : 1 ≤ n) (hsz : 0 < sz) (hfit : base + sz * n < U64) (hpos : 0 < base) :
    (i ≤ n - 1 → ARRAY_ELEM_PTR base i n sz = base + i * sz) ∧
    ((i * sz) % U64 > sz * (n - 1) → ARRAY_ELEM_PTR base i n sz = 0) ∧
    ARRAY_ELEM_PTR 4096 3 0 8 = 4096 + 3 * 8 := by
  have hnlt : n < U64 := by
    have h1 : n ≤ sz * n := Nat.le_mul_of_pos_left n hsz
    omega
  have hsub : (n + (U64 - 1)) % U64 = n - 1 := by
    have h1 : n + (U64 - 1) = (n - 1) + U64 := by omega
    rw [h1, Nat.add_mod_right, Nat.mod_eq_of_lt (by omega)]
  have hmx : (sz * ((n + (U64 - 1)) % U64)) % U64 = sz * (n - 1) := by
    rw [hsub, Nat.mod_eq_of_lt (by
      have h2 : sz * (n - 1) ≤ sz * n := Nat.mul_le_mul_left sz (by omega)
      omega)]
  refine ⟨?_, ?_, ?_⟩
  · intro hi
    unfold ARRAY_ELEM_PTR
    simp only [hmx]
    have hoffle : i * sz ≤ sz * (n - 1) := by
      rw [Nat.mul_comm]
      exact Nat.mul_le_mul_left sz hi
    have hoffsmall : i * sz < U64 := by
      have h2 : sz * (n - 1) ≤ sz * n := Nat.mul_le_mul_left sz (by omega)
      omega
    rw [Nat.mod_eq_of_lt hoffsmall, if_pos hoffle,
      Nat.mod_eq_of_lt (by
        have h2 : sz * (n - 1) ≤ sz * n := Nat.mul_le_mul_left sz (by omega)
        omega),
      Nat.add_comm]
  · intro hgt
    unfold ARRAY_ELEM_PTR
    simp only [hmx]
    rw [if_neg (by omega)]
  · decide

/-- Witness for C10 at the concrete instance `base = 4096`, `n = 4`,
`sz = 8`: index `2` is in range and yields the element address `4112`,
while index `9` has byte offset `72 > 8 * 3` and yields NULL. -/
theorem ARRAY_ELEM_PTR_fails_closed_witness :
    (1 ≤ 4 ∧ 0 < 8 ∧ 4096 + 8 * 4 < U64 ∧ 0 < 4096) ∧
    ARRAY_ELEM_PTR 4096 2 4 8 = 4096 + 2 * 8 ∧
    ARRAY_ELEM_PTR 4096 9 4 8 = 0 := by
  refine ⟨⟨by decide, by decide, by decide, by decide⟩, ?_, ?_⟩
  · exact (ARRAY_ELEM_PTR_fails_closed 4096 2 4 8 (by decide) (by decide)
      (by decide) (by decide)).1 (by decide)
  · exact (ARRAY_ELEM_PTR_fails_closed 4096 9 4 8 (by decide) (by decide)
      (by decide) (by decide)).2.1 (by decide)

/-- Modelled from the spec: a CPU mask is a bitset over the runtime CPU count
`n` fixed at startup ("Masks are sized to the runtime CPU count fixed at
startup"), one bit per CPU (`bpf_cpumask_*` kernel objects in the header). -/
abbrev CpuMask (n : Nat) := Fin n → Bool

variable {n : Nat}

/-- Modelled from the spec: `BoundsError` — "CPU index or array offset
outside valid range", returned by `set`/`clear`/`test` on an out-of-range
CPU index. -/
inductive BoundsError where
  | outOfRange
deriving DecidableEq, Repr

/-- Modelled from the spec: `and(dst, a, b)` with standard Boolean bitset
semantics (the `bpf_cpumask_and` kernel function). -/
def bpf_cpumask_and (a b : CpuMask n) : CpuMask n := fun i => a i && b i

/-- Modelled from the spec: `or(dst, a, b)` with standard Boolean bitset
semantics (the `bpf_cpumask_or` kernel function). -/
def bpf_cpumask_or (a b : CpuMask n) : CpuMask n := fun i => a i || b i

/-- Modelled from the spec: the complement of a mask (pointwise negation),
as used by the bitset algebra law `a OR complement(a) == full`. -/
def cpumaskComplement (a : CpuMask n) : CpuMask n := fun i => !(a i)

/-- Modelled from the spec: the all-clear mask produced by `create()` /
`clear_all()` (the `bpf_cpumask_clear` kernel function). -/
def cpumaskEmpty (n : Nat) : CpuMask n := fun _ => false

/-- Modelled from the spec: the all-set mask produced by `set_all()`
(the `bpf_cpumask_setall` kernel function). -/
def cpumaskFull (n : Nat) : CpuMask n := fun _ => true

/-- Modelled from the spec: `is_subset_of` (the `bpf_cpumask_subset` kernel
function): every CPU set in the first mask is set in the second. -/
def bpf_cpumask_subset (a b : CpuMask n) : Bool :=
  decide (∀ i, a i = true → b i = true)

/-- Modelled from the spec: `set(cpu)` (the `bpf_cpumask_set_cpu` kernel
function).  An out-of-range CPU index is a BoundsError that fails closed:
the error is returned and the mask is left unchanged. -/
def bpf_cpumask_set_cpu (cpu : Nat) (m : CpuMask n) :
    Except BoundsError Unit × CpuMask n :=
  if cpu < n then
    (Except.ok (), fun i => if i.val = cpu then true else m i)
  else (Except.error BoundsError.outOfRange, m)

/-- Modelled from the spec: `clear(cpu)` (the `bpf_cpumask_clear_cpu` kernel
function), failing closed on an out-of-range CPU index. -/
def bpf_cpumask_clear_cpu (cpu : Nat) (m : CpuMask n) :
    Except BoundsError Unit × CpuMask n :=
  if cpu < n then
    (Except.ok (), fun i => if i.val = cpu then false else m i)
  else (Except.error BoundsError.outOfRange, m)

/-- Modelled from the spec: `test(cpu) -> bool` (the `bpf_cpumask_test_cpu`
kernel function), failing closed on an out-of-range CPU index. -/
def bpf_cpumask_test_cpu (cpu : Nat) (m : CpuMask n) : Except BoundsError Bool :=
  if h : cpu < n then Except.ok (m ⟨cpu, h⟩)
  else Except.error BoundsError.outOfRange

/-- The claim C6: the bitset algebra laws hold for all masks `a`, `b` over
the fixed runtime CPU count: `a AND a = a`, `a OR complement(a) = full`,
`a AND empty = empty`, and `is_subset_of(a, a OR b) = true`. -/
theorem cpumask_algebra_laws (n : Nat) (a b : CpuMask n) :
    bpf_cpumask_and a a = a ∧
    bpf_cpumask_or a (cpumaskComplement a) = cpumaskFull n ∧
    bpf_cpumask_and a (cpumaskEmpty n) = cpumaskEmpty n ∧
    bpf_cpumask_subset a (bpf_cpumask_or a b) = true := by
  refine ⟨?_, ?_, ?_, ?_⟩
  · funext i
    exact Bool.and_self (a i)
  · funext i
    simp [bpf_cpumask_or, cpumaskComplement, cpumaskFull]
  · funext i
    simp [bpf_cpumask_and, cpumaskEmpty]
  · simp only [bpf_cpumask_subset, decide_eq_true_eq]
    intro i h
    simp [bpf_cpumask_or, h]

/-- The claim C7: for every CPU index at or above the runtime CPU count `n`,
`set`, `clear` and `test` all yield a BoundsError failure result and leave
the mask unchanged. -/
theorem cpumask_out_of_range_fails_closed (n cpu : Nat) (m : CpuMask n)
    (h : n ≤ cpu) :
    (bpf_cpumask_set_cpu cpu m).1 = Except.error BoundsError.outOfRange ∧
    (bpf_cpumask_set_cpu cpu m).2 = m ∧
    (bpf_cpumask_clear_cpu cpu m).1 = Except.error BoundsError.outOfRange ∧
    (bpf_cpumask_clear_cpu cpu m).2 = m ∧
    bpf_cpumask_test_cpu cpu m = Except.error BoundsError.outOfRange := by
  have hlt : ¬ cpu < n := by omega
  refine ⟨?_, ?_, ?_, ?_, ?_⟩ <;>
    simp [bpf_cpumask_set_cpu, bpf_cpumask_clear_cpu, bpf_cpumask_test_cpu, hlt]

/-- Witness for C7 at the concrete instance `n = 2`, `cpu = 5`, on the empty
mask: all three operations fail with `outOfRange` and the mask is
unchanged. -/
theorem cpumask_out_of_range_fails_closed_witness :
    2 ≤ 5 ∧
    ((bpf_cpumask_set_cpu 5 (cpumaskEmpty 2)).1 =
        Except.error BoundsError.outOfRange ∧
      (bpf_cpumask_set_cpu 5 (cpumaskEmpty 2)).2 = cpumaskEmpty 2 ∧
      (bpf_cpumask_clear_cpu 5 (cpumaskEmpty 2)).1 =
        Except.error BoundsError.outOfRange ∧
      (bpf_cpumask_clear_cpu 5 (cpumaskEmpty 2)).2 = cpumaskEmpty 2 ∧
      bpf_cpumask_test_cpu 5 (cpumaskEmpty 2) =
        Except.error BoundsError.outOfRange) :=
  ⟨by decide, cpumask_out_of_range_fails_closed 2 5 (cpumaskEmpty 2) (by decide)⟩

/-- Modelled from the spec: testing a CPU bit by plain `Nat` index, false
when out of range; a convenience view used by the idle tracker and the CPU
selection model. -/
def maskTest (m : CpuMask n) (cpu : Nat) : Bool :=
  if h : cpu < n then m ⟨cpu, h⟩ else false

/-- Modelled from the spec: `try_claim_idle(cpu)` — "atomic test-and-clear;
at most one concurrent caller observes success for a given CPU and instant"
(the `scx_bpf_test_and_clear_cpu_idle` kernel function).  Returns whether the
CPU was idle and the idle bitmap with that CPU's bit cleared. -/
def scx_bpf_test_and_clear_cpu_idle (cpu : Nat) (m : CpuMask n) :
    Bool × CpuMask n :=
  if maskTest m cpu then
    (true, fun i => if i.val = cpu then false else m i)
  else (false, m)

/-- Modelled from the spec: `N` callers racing on `try_claim_idle(cpu)`.
Each call is a single atomic test-and-clear, so any concurrent execution
linearizes to some sequential order of the `N` identical calls; this runs
them in sequence and collects each caller's result. -/
def runClaims (cpu : Nat) (m : CpuMask n) : Nat → List Bool × CpuMask n
  | 0 => ([], m)
  | k + 1 =>
    let r := scx_bpf_test_and_clear_cpu_idle cpu m
    let rest := runClaims cpu r.2 k
    (r.1 :: rest.1, rest.2)

theorem runClaims_not_idle (cpu : Nat) (m : CpuMask n)
    (h : maskTest m cpu = false) :
    ∀ k, (runClaims cpu m k).1.count true = 0 := by
  intro k
  induction k generalizing m with
  | zero => simp [runClaims]
  | succ k ih =>
    simp only [runClaims, scx_bpf_test_and_clear_cpu_idle, h, if_false]
    simp [List.count_cons, ih m h]

/-- Helper: a race of `k` claim calls produces one result per caller. -/
theorem runClaims_length (cpu : Nat) (m : CpuMask n) :
    ∀ k, (runClaims cpu m k).1.length = k := by
  intro k
  induction k generalizing m with
  | zero => simp [runClaims]
  | succ j ih => simp [runClaims, ih]

/-- The claim C9: idle-claim exclusivity.  For a CPU `cpu` marked idle and
any number `N ≥ 1` of concurrent `try_claim_idle(cpu)` callers — whose atomic
test-and-clears linearize to a sequence of `N` calls — exactly one call
returns true (the list of the `N` results contains exactly one `true`). -/
theorem try_claim_idle_exclusive (n cpu N : Nat) (m : CpuMask n)
    (hidle : maskTest m cpu = true) (hN : 1 ≤ N) :
    (runClaims cpu m N).1.count true = 1 ∧
    (runClaims cpu m N).1.length = N := by
  obtain ⟨k, rfl⟩ : ∃ k, N = k + 1 := ⟨N - 1, by omega⟩
  have hcpu : cpu < n := by
    by_contra hge
    simp [maskTest, hge] at hidle
  refine ⟨?_, runClaims_length cpu m (k + 1)⟩
  have hstep : (runClaims cpu m (k + 1)).1 =
      true :: (runClaims cpu
        (fun i : Fin n => if i.val = cpu then false else m i) k).1 := by
    simp only [runClaims, scx_bpf_test_and_clear_cpu_idle, hidle, if_true]
  have hcleared :
      maskTest (fun i : Fin n => if i.val = cpu then false else m i) cpu
        = false := by
    simp [maskTest, hcpu]
  rw [hstep, List.count_cons, runClaims_not_idle cpu _ hcleared k]
  simp

/-- Witness for C9 at the concrete instance `n = 2`, `cpu = 0` idle, `N = 3`
racing callers: the result list contains exactly one `true`. -/
theorem try_claim_idle_exclusive_witness :
    (maskTest (cpumaskFull 2) 0 = true ∧ 1 ≤ 3) ∧
    ((runClaims 0 (cpumaskFull 2) 3).1.count true = 1 ∧
      (runClaims 0 (cpumaskFull 2) 3).1.length = 3) :=
  ⟨⟨by decide, by decide⟩,
    try_claim_idle_exclusive 2 0 3 (cpumaskFull 2) (by decide) (by decide)⟩

/-- Modelled from the spec: the lowest-indexed CPU set in a mask, if any;
selection within the candidate set is unspecified by the claim, so the first
set bit is used. -/
def firstSet (m : CpuMask n) : Option Nat :=
  (List.range n).find? (fun i => maskTest m i)

/-- Modelled from the spec: `pick_idle_cpu(allowed)` (the
`scx_bpf_pick_idle_cpu` kernel function) — searches the idle-and-allowed set
and returns a successfully claimed CPU, or none if there is no candidate.
In a sequential model the claim always succeeds, and the SMT-preference pass
only reorders the search, so the result is a member of `idle AND allowed`. -/
def scx_bpf_pick_idle_cpu (idle allowed : CpuMask n) : Option Nat :=
  firstSet (bpf_cpumask_and idle allowed)

/-- Modelled from the spec: `pick_any_cpu(allowed)` (the
`scx_bpf_pick_any_cpu` kernel function) — fallback selection of some member
of the allowed set, or none if it is empty. -/
def scx_bpf_pick_any_cpu (allowed : CpuMask n) : Option Nat :=
  firstSet allowed

/-- Modelled from the spec: `select_cpu_default(task, prev_cpu, wake_flags)`
(the `scx_bpf_select_cpu_dfl` kernel function) — "try `prev_cpu` if idle and
allowed, else `pick_idle_cpu`, else `pick_any_cpu`, else `prev_cpu`
unconditionally".  `idle` is the idle bitmap and `allowed` the task's
affinity mask; the wake flags only tune the search and are not modelled. -/
def scx_bpf_select_cpu_dfl (idle allowed : CpuMask n) (prevCpu : Nat) : Nat :=
  if maskTest idle prevCpu && maskTest allowed prevCpu then prevCpu
  else
    match scx_bpf_pick_idle_cpu idle allowed with
    | some c => c
    | none =>
      match scx_bpf_pick_any_cpu allowed with
      | some c => c
      | none => prevCpu

theorem firstSet_mem (m : CpuMask n) (c : Nat) (h : firstSet m = some c) :
    maskTest m c = true := by
  have := List.find?_some h
  simpa using this

/-- The claim C5: `select_cpu_default` returns `prev_cpu` when it is idle and
allowed for the task; otherwise the result of `pick_idle_cpu` when that is
some CPU (necessarily idle and allowed); otherwise the result of
`pick_any_cpu` when that is some CPU (necessarily allowed); otherwise
`prev_cpu` unconditionally — in every case it returns a CPU id. -/
theorem select_cpu_dfl_cases (n : Nat) (idle allowed : CpuMask n)
    (prevCpu : Nat) :
    (maskTest idle prevCpu = true → maskTest allowed prevCpu = true →
      scx_bpf_select_cpu_dfl idle allowed prevCpu = prevCpu) ∧
    (∀ c, (maskTest idle prevCpu && maskTest allowed prevCpu) = false →
      scx_bpf_pick_idle_cpu idle allowed = some c →
      scx_bpf_select_cpu_dfl idle allowed prevCpu = c ∧
        maskTest idle c = true ∧ maskTest allowed c = true) ∧
    (∀ c, (maskTest idle prevCpu && maskTest allowed prevCpu) = false →
      scx_bpf_pick_idle_cpu idle allowed = none →
      scx_bpf_pick_any_cpu allowed = some c →
      scx_bpf_select_cpu_dfl idle allowed prevCpu = c ∧
        maskTest allowed c = true) ∧
    ((maskTest idle prevCpu && maskTest allowed prevCpu) = false →
      scx_bpf_pick_idle_cpu idle allowed = none →
      scx_bpf_pick_any_cpu allowed = none →
      scx_bpf_select_cpu_dfl idle allowed prevCpu = prevCpu) := by
  refine ⟨?_, ?_, ?_, ?_⟩
  · intro h1 h2
    simp [scx_bpf_select_cpu_dfl, h1, h2]
  · intro c hprev hpick
    have hmem := firstSet_mem (bpf_cpumask_and idle allowed) c hpick
    have hc : c < n := by
      by_contra hge
      simp [maskTest, hge] at hmem
    refine ⟨?_, ?_, ?_⟩
    · simp [scx_bpf_select_cpu_dfl, hprev, hpick]
    · simp only [maskTest, dif_pos hc] at hmem ⊢
      simp only [bpf_cpumask_and, Bool.and_eq_true] at hmem
      exact hmem.1
    · simp only [maskTest, dif_pos hc] at hmem ⊢
      simp only [bpf_cpumask_and, Bool.and_eq_true] at hmem
      exact hmem.2
  · intro c hprev hnone hany
    refine ⟨?_, firstSet_mem allowed c hany⟩
    simp [scx_bpf_select_cpu_dfl, hprev, hnone, hany]
  · intro hprev hnone hany
    simp [scx_bpf_select_cpu_dfl, hprev, hnone, hany]

/-- Witness for C5 over 4 CPUs with `idle = {1, 3}` and `allowed = {0, 1}`:
`prev_cpu = 0` is allowed but not idle, and `pick_idle_cpu` finds CPU `1`,
which is returned. -/
theorem select_cpu_dfl_cases_witness :
    ((maskTest (fun i : Fin 4 => decide (i.val = 1) || decide (i.val = 3)) 0 &&
        maskTest (fun i : Fin 4 => decide (i.val ≤ 1)) 0) = false ∧
      scx_bpf_pick_idle_cpu
        (fun i : Fin 4 => decide (i.val = 1) || decide (i.val = 3))
        (fun i : Fin 4 => decide (i.val ≤ 1)) = some 1) ∧
    (scx_bpf_select_cpu_dfl
        (fun i : Fin 4 => decide (i.val = 1) || decide (i.val = 3))
        (fun i : Fin 4 => decide (i.val ≤ 1)) 0 = 1 ∧
      maskTest (fun i : Fin 4 => decide (i.val = 1) || decide (i.val = 3)) 1
          = true ∧
      maskTest (fun i : Fin 4 => decide (i.val ≤ 1)) 1 = true) :=
  ⟨⟨by decide, by decide⟩,
    (select_cpu_dfl_cases 4
      (fun i : Fin 4 => decide (i.val = 1) || decide (i.val = 3))
      (fun i : Fin 4 => decide (i.val ≤ 1)) 0).2.1 1 (by decide) (by decide)⟩

/-- Modelled from the spec: a queued task entry — "each referencing a
TaskHandle plus a requested time-slice length, an enqueue-flags bitset, and
(if vtime mode) a virtual-time key"; `seq` is the arrival sequence used to
break equal-key ties. -/
structure VEntry where
  task : Nat
  slice : Nat
  flags : Nat
  key : Nat
  seq : Nat
deriving DecidableEq, Repr

/-- Modelled from the spec: a dispatch queue's ordering mode is FIFO or
virtual-time. -/
inductive QMode where
  | fifo
  | vtime
deriving DecidableEq, Repr

/-- Modelled from the spec: a dispatch queue holds zero or more queued-task
entries in its ordering mode. -/
structure DispatchQueue where
  mode : QMode
  entries : List VEntry
deriving DecidableEq, Repr

/-- Modelled from the spec: `QueueError` — "operation against an unknown
queue id, or vtime operation against a FIFO-mode queue", plus the failure
returned by every core operation once a fatal fault has deactivated the
policy. -/
inductive QueueError where
  | unknownQueue
  | modeMismatch
  | policyInactive
deriving DecidableEq, Repr

/-- Modelled from the spec: the process-wide scheduler state — the table of
dispatch queues keyed by 64-bit id, the fatal-fault deactivation flag set by
`report_fatal`, the arrival-sequence counter, and the recorded fatal
diagnostics. -/
structure SchedState where
  queues : List (Nat × DispatchQueue)
  deactivated : Bool
  nextSeq : Nat
  fatalMsgs : List String
deriving DecidableEq, Repr

/-- Lookup of a queue by id in the queue table (first match). -/
def findQ (id : Nat) : List (Nat × DispatchQueue) → Option DispatchQueue
  | [] => none
  | (i, q) :: rest => if i = id then some q else findQ id rest

/-- Replacement of the queue stored under `id` (first match; the table is
unchanged when `id` is absent). -/
def updateQueue (id : Nat) (q : DispatchQueue) :
    List (Nat × DispatchQueue) → List (Nat × DispatchQueue)
  | [] => []
  | (i, x) :: rest =>
    if i = id then (i, q) :: rest else (i, x) :: updateQueue id q rest

/-- Modelled from the spec: `enqueue_fifo(id, task, slice, flags)` (the
`scx_bpf_dispatch` kernel function) — "appends to the tail; fails if `id`
unknown"; after a fatal fault it is a no-op returning failure. -/
def scx_bpf_dispatch (s : SchedState) (id task slice flags : Nat) :
    Except QueueError SchedState :=
  if s.deactivated then Except.error QueueError.policyInactive
  else
    match findQ id s.queues with
    | none => Except.error QueueError.unknownQueue
    | some q =>
      Except.ok
        { s with
          queues := updateQueue id
            { q with entries := q.entries ++ [⟨task, slice, flags, 0, s.nextSeq⟩] }
            s.queues,
          nextSeq := s.nextSeq + 1 }

/-- Stable sorted insertion by vtime key: the new entry is placed after every
entry whose key is less than or equal to its own, so ties keep enqueue
order. -/
def insertVtime (e : VEntry) : List VEntry → List VEntry
  | [] => [e]
  | x :: xs => if x.key ≤ e.key then x :: insertVtime e xs else e :: x :: xs

/-- Modelled from the spec: `enqueue_vtime(id, task, slice, vtime_key, flags)`
(the `scx_bpf_dispatch_vtime` kernel function) — "inserts maintaining sorted
order by `vtime_key`, ties broken by insertion order; requires the queue be
in vtime mode". -/
def scx_bpf_dispatch_vtime (s : SchedState) (id task slice key flags : Nat) :
    Except QueueError SchedState :=
  if s.deactivated then Except.error QueueError.policyInactive
  else
    match findQ id s.queues with
    | none => Except.error QueueError.unknownQueue
    | some q =>
      match q.mode with
      | QMode.fifo => Except.error QueueError.modeMismatch
      | QMode.vtime =>
        Except.ok
          { s with
            queues := updateQueue id
              { q with
                entries := insertVtime ⟨task, slice, flags, key, s.nextSeq⟩
                  q.entries }
              s.queues,
            nextSeq := s.nextSeq + 1 }

/-- Modelled from the spec: `consume(id) -> bool` (the `scx_bpf_consume`
kernel function) — "removes the head element and transfers it to the
invoking CPU's local run slot; returns whether an element was moved"; after
a fatal fault it is a no-op returning failure (false). -/
def scx_bpf_consume (s : SchedState) (id : Nat) : Bool × SchedState :=
  if s.deactivated then (false, s)
  else
    match findQ id s.queues with
    | none => (false, s)
    | some q =>
      match q.entries with
      | [] => (false, s)
      | _ :: rest =>
        (true, { s with queues := updateQueue id { q with entries := rest } s.queues })

/-- Modelled from the spec: the task a `consume(id)` call would move to the
local run slot, namely the head of the queue. -/
def consumedTask (s : SchedState) (id : Nat) : Option VEntry :=
  if s.deactivated then none
  else
    match findQ id s.queues with
    | none => none
    | some q => q.entries.head?

/-- Modelled from the spec: `nr_queued(id)` (the `scx_bpf_dsq_nr_queued`
kernel function) — the queue's current length. -/
def scx_bpf_dsq_nr_queued (s : SchedState) (id : Nat) : Nat :=
  match findQ id s.queues with
  | none => 0
  | some q => q.entries.length

/-- Modelled from the spec: `report_fatal(message, ...)` (the
`scx_bpf_error` macro over the `scx_bpf_error_bstr` kernel function) —
"records a fatal fault, marks the active policy inactive, and requests
host-runtime unload/fallback". -/
def scx_bpf_error (s : SchedState) (msg : String) : SchedState :=
  { s with deactivated := true, fatalMsgs := s.fatalMsgs ++ [msg] }

theorem findQ_update_self (id : Nat) (q1 : DispatchQueue) :
    ∀ (l : List (Nat × DispatchQueue)) (q0 : DispatchQueue),
      findQ id l = some q0 → findQ id (updateQueue id q1 l) = some q1 := by
  intro l
  induction l with
  | nil => intro q0 h; simp [findQ] at h
  | cons p rest ih =>
    intro q0 h
    obtain ⟨i, x⟩ := p
    by_cases hi : i = id
    · simp [findQ, updateQueue, hi]
    · simp only [findQ, updateQueue, if_neg hi] at h ⊢
      exact ih q0 h

theorem findQ_mem (id : Nat) :
    ∀ (l : List (Nat × DispatchQueue)) (q : DispatchQueue),
      findQ id l = some q → (id, q) ∈ l := by
  intro l
  induction l with
  | nil => intro q h; simp [findQ] at h
  | cons p rest ih =>
    intro q h
    obtain ⟨i, x⟩ := p
    by_cases hi : i = id
    · simp only [findQ, if_pos hi] at h
      subst hi
      injection h with h
      subst h
      exact List.mem_cons_self _ _
    · simp only [findQ, if_neg hi] at h
      exact List.mem_cons_of_mem _ (ih q h)

theorem mem_updateQueue (id : Nat) (q : DispatchQueue) :
    ∀ (l : List (Nat × DispatchQueue)) (p : Nat × DispatchQueue),
      p ∈ updateQueue id q l → p = (id, q) ∨ p ∈ l := by
  intro l
  induction l with
  | nil => intro p h; simp [updateQueue] at h
  | cons hd rest ih =>
    intro p h
    obtain ⟨i, x⟩ := hd
    by_cases hi : i = id
    · subst hi
      simp only [updateQueue, if_pos rfl] at h
      rcases List.mem_cons.mp h with h1 | h1
      · exact Or.inl h1
      · exact Or.inr (List.mem_cons_of_mem _ h1)
    · simp only [updateQueue, if_neg hi] at h
      rcases List.mem_cons.mp h with h1 | h1
      · exact Or.inr (by simp [h1])
      · rcases ih p h1 with h2 | h2
        · exact Or.inl h2
        · exact Or.inr (List.mem_cons_of_mem _ h2)

/-- The claim C2: for every live queue `id` and task, `enqueue_fifo` followed
by `consume(id)` returns true, and `nr_queued(id)` decreases by exactly 1
across the consume (from one above its pre-enqueue value back to it). -/
theorem enqueue_then_consume (s : SchedState) (id task slice flags : Nat)
    (q : DispatchQueue) (hact : s.deactivated = false)
    (hq : findQ id s.queues = some q) :
    ∃ s1, scx_bpf_dispatch s id task slice flags = Except.ok s1 ∧
      (scx_bpf_consume s1 id).1 = true ∧
      scx_bpf_dsq_nr_queued (scx_bpf_consume s1 id).2 id + 1 =
        scx_bpf_dsq_nr_queued s1 id ∧
      scx_bpf_dsq_nr_queued s1 id = scx_bpf_dsq_nr_queued s id + 1 := by
  set q1 : DispatchQueue :=
    { q with entries := q.entries ++ [⟨task, slice, flags, 0, s.nextSeq⟩] }
    with hq1
  set s1 : SchedState :=
    { s with queues := updateQueue id q1 s.queues, nextSeq := s.nextSeq + 1 }
    with hs1
  have hdisp : scx_bpf_dispatch s id task slice flags = Except.ok s1 := by
    rw [hs1, hq1]
    simp [scx_bpf_dispatch, hact, hq]
  have hfind1 : findQ id s1.queues = some q1 :=
    findQ_update_self id q1 s.queues q hq
  obtain ⟨hd, tl, hht⟩ :
      ∃ hd tl,
        q.entries ++ [(⟨task, slice, flags, 0, s.nextSeq⟩ : VEntry)] = hd :: tl := by
    cases q.entries <;> exact ⟨_, _, rfl⟩
  have hact1 : s1.deactivated = false := by rw [hs1]; exact hact
  have hcons : scx_bpf_consume s1 id =
      (true,
        { s1 with
          queues := updateQueue id ({ q1 with entries := tl }) s1.queues }) := by
    simp [scx_bpf_consume, hact, hact1, hfind1, hht]
  have hfind2 :
      findQ id (updateQueue id ({ q1 with entries := tl }) s1.queues)
        = some { q1 with entries := tl } :=
    findQ_update_self id _ s1.queues q1 hfind1
  have hlen : (q.entries ++
      [(⟨task, slice, flags, 0, s.nextSeq⟩ : VEntry)]).length = tl.length + 1 := by
    rw [hht]
    rfl
  refine ⟨s1, hdisp, by rw [hcons], ?_, ?_⟩
  · rw [hcons]
    simp only [scx_bpf_dsq_nr_queued, hfind2, hfind1, hq1]
    simp only [List.length_append, List.length_cons, List.length_nil] at hlen ⊢
    omega
  · have hqs : findQ id s.queues = some q := hq
    simp only [scx_bpf_dsq_nr_queued, hfind1, hqs, hq1]
    simp

/-- Concrete scheduler state used by the witnesses: one empty FIFO queue with
id 5, policy active. -/
def s0 : SchedState :=
  { queues := [(5, { mode := QMode.fifo, entries := [] })],
    deactivated := false,
    nextSeq := 0,
    fatalMsgs := [] }

/-- Witness for C2 on the concrete state `s0`: enqueueing task 7 on queue 5
and consuming returns true, and `nr_queued` drops from 1 back to 0. -/
theorem enqueue_then_consume_witness :
    (s0.deactivated = false ∧
      findQ 5 s0.queues = some { mode := QMode.fifo, entries := [] }) ∧
    (∃ s1, scx_bpf_dispatch s0 5 7 1000 0 = Except.ok s1 ∧
      (scx_bpf_consume s1 5).1 = true ∧
      scx_bpf_dsq_nr_queued (scx_bpf_consume s1 5).2 5 + 1 =
        scx_bpf_dsq_nr_queued s1 5 ∧
      scx_bpf_dsq_nr_queued s1 5 = scx_bpf_dsq_nr_queued s0 5 + 1) :=
  ⟨⟨rfl, rfl⟩,
    enqueue_then_consume s0 5 7 1000 0 { mode := QMode.fifo, entries := [] }
      rfl rfl⟩

/-- The claim C4: with the policy active, `enqueue_fifo(id, task, slice,
flags)` returns a QueueError failure whenever `id` does not name an existing
queue, and otherwise succeeds having appended the task at the tail of the
queue. -/
theorem enqueue_fifo_result (s : SchedState) (id task slice flags : Nat)
    (hact : s.deactivated = false) :
    (findQ id s.queues = none →
      scx_bpf_dispatch s id task slice flags =
        Except.error QueueError.unknownQueue) ∧
    (∀ q, findQ id s.queues = some q →
      ∃ s1, scx_bpf_dispatch s id task slice flags = Except.ok s1 ∧
        findQ id s1.queues =
          some { q with
            entries := q.entries ++ [⟨task, slice, flags, 0, s.nextSeq⟩] }) := by
  constructor
  · intro hnone
    simp [scx_bpf_dispatch, hact, hnone]
  · intro q hq
    refine ⟨{ s with
        queues := updateQueue id
          { q with entries := q.entries ++ [⟨task, slice, flags, 0, s.nextSeq⟩] }
          s.queues,
        nextSeq := s.nextSeq + 1 }, ?_, ?_⟩
    · simp [scx_bpf_dispatch, hact, hq]
    · exact findQ_update_self id _ s.queues q hq

/-- Witness for C4 on the concrete state `s0`: id 9 names no queue and the
enqueue fails with `unknownQueue`. -/
theorem enqueue_fifo_result_witness :
    (s0.deactivated = false ∧ findQ 9 s0.queues = none) ∧
    scx_bpf_dispatch s0 9 7 1000 0 = Except.error QueueError.unknownQueue :=
  ⟨⟨rfl, rfl⟩, (enqueue_fifo_result s0 9 7 1000 0 rfl).1 rfl⟩

/-- Modelled from the spec: the core dispatch-queue operations a policy may
invoke after a fatal fault — FIFO enqueue, vtime enqueue, and consume. -/
inductive CoreOp where
  | enqFifo (id task slice flags : Nat)
  | enqVtime (id task slice key flags : Nat)
  | consumeOp (id : Nat)

/-- Modelled from the spec: applying one core operation to the state; a
failing operation leaves the state as it was. -/
def applyOp (s : SchedState) : CoreOp → SchedState
  | CoreOp.enqFifo id task slice flags =>
    match scx_bpf_dispatch s id task slice flags with
    | Except.ok s1 => s1
    | Except.error _ => s
  | CoreOp.enqVtime id task slice key flags =>
    match scx_bpf_dispatch_vtime s id task slice key flags with
    | Except.ok s1 => s1
    | Except.error _ => s
  | CoreOp.consumeOp id => (scx_bpf_consume s id).2

/-- Modelled from the spec: running a sequence of core operations. -/
def runOps (s : SchedState) : List CoreOp → SchedState
  | [] => s
  | op :: ops => runOps (applyOp s op) ops

theorem applyOp_deactivated (s : SchedState) (hd : s.deactivated = true) :
    ∀ op, applyOp s op = s := by
  intro op
  cases op with
  | enqFifo id task slice flags =>
    simp [applyOp, scx_bpf_dispatch, hd]
  | enqVtime id task slice key flags =>
    simp [applyOp, scx_bpf_dispatch_vtime, hd]
  | consumeOp id =>
    simp [applyOp, scx_bpf_consume, hd]

theorem runOps_deactivated (s : SchedState) (hd : s.deactivated = true) :
    ∀ ops, runOps s ops = s := by
  intro ops
  induction ops with
  | nil => rfl
  | cons op rest ih =>
    simp only [runOps, applyOp_deactivated s hd op]
    exact ih

/-- The claim C8: after `report_fatal` (the `scx_bpf_error` wrapper around
`scx_bpf_error_bstr`) has been invoked, every subsequent `enqueue_fifo` and
`consume` call returns failure and leaves every queue unchanged: any
sequence of core operations run after the fault leaves the state exactly as
`report_fatal` left it, with the original queue contents. -/
theorem report_fatal_deactivates (s : SchedState) (msg : String) :
    (∀ id task slice flags,
      scx_bpf_dispatch (scx_bpf_error s msg) id task slice flags =
        Except.error QueueError.policyInactive) ∧
    (∀ id, scx_bpf_consume (scx_bpf_error s msg) id =
      (false, scx_bpf_error s msg)) ∧
    (∀ ops, runOps (scx_bpf_error s msg) ops = scx_bpf_error s msg ∧
      (runOps (scx_bpf_error s msg) ops).queues = s.queues ∧
      (runOps (scx_bpf_error s msg) ops).deactivated = true) := by
  have hd : (scx_bpf_error s msg).deactivated = true := rfl
  refine ⟨?_, ?_, ?_⟩
  · intro id task slice flags
    simp [scx_bpf_dispatch, hd]
  · intro id
    simp [scx_bpf_consume, hd]
  · intro ops
    refine ⟨runOps_deactivated _ hd ops, ?_, ?_⟩
    · rw [runOps_deactivated _ hd ops]
      rfl
    · rw [runOps_deactivated _ hd ops]
      exact hd

/-- Modelled from the spec: the order maintained inside a vtime-mode queue —
strictly increasing key, or equal keys in arrival-sequence order ("ties
broken by arrival sequence"). -/
def entryLe (a b : VEntry) : Prop :=
  a.key < b.key ∨ (a.key = b.key ∧ a.seq < b.seq)

instance (a b : VEntry) : Decidable (entryLe a b) := by
  unfold entryLe
  infer_instance

/-- Modelled from the spec: the invariant of the queue table — "within a
queue, vtime-mode entries are maintained in non-decreasing key order with
ties broken by arrival sequence"; arrival sequences are below the state's
next-sequence counter. -/
def schedInv (s : SchedState) : Prop :=
  ∀ p ∈ s.queues, p.2.mode = QMode.vtime →
    p.2.entries.Pairwise entryLe ∧ ∀ e ∈ p.2.entries, e.seq < s.nextSeq

instance (s : SchedState) : Decidable (schedInv s) := by
  unfold schedInv
  infer_instance

theorem mem_insertVtime (e b : VEntry) :
    ∀ l, b ∈ insertVtime e l → b = e ∨ b ∈ l := by
  intro l
  induction l with
  | nil =>
    intro h
    simp [insertVtime] at h
    exact Or.inl h
  | cons x xs ih =>
    intro h
    by_cases hk : x.key ≤ e.key
    · simp only [insertVtime, if_pos hk] at h
      rcases List.mem_cons.mp h with h1 | h1
      · exact Or.inr (by simp [h1])
      · rcases ih h1 with h2 | h2
        · exact Or.inl h2
        · exact Or.inr (List.mem_cons_of_mem _ h2)
    · simp only [insertVtime, if_neg hk] at h
      rcases List.mem_cons.mp h with h1 | h1
      · exact Or.inl h1
      · exact Or.inr h1

theorem pairwise_insertVtime (e : VEntry) :
    ∀ l, l.Pairwise entryLe → (∀ b ∈ l, b.seq < e.seq) →
      (insertVtime e l).Pairwise entryLe := by
  intro l
  induction l with
  | nil =>
    intro _ _
    simp [insertVtime]
  | cons x xs ih =>
    intro hpw hseq
    obtain ⟨hx, hxs⟩ := List.pairwise_cons.mp hpw
    by_cases hk : x.key ≤ e.key
    · simp only [insertVtime, if_pos hk]
      refine List.pairwise_cons.mpr
        ⟨?_, ih hxs (fun b hb => hseq b (List.mem_cons_of_mem _ hb))⟩
      intro b hb
      rcases mem_insertVtime e b xs hb with h1 | h1
      · subst h1
        rcases Nat.lt_or_ge x.key b.key with hlt | hge
        · exact Or.inl hlt
        · have hkeq : x.key = b.key := Nat.le_antisymm hk hge
          exact Or.inr ⟨hkeq, hseq x (List.mem_cons_self x xs)⟩
      · exact hx b h1
    · simp only [insertVtime, if_neg hk]
      have hek : e.key < x.key := by omega
      refine List.pairwise_cons.mpr ⟨?_, hpw⟩
      intro b hb
      rcases List.mem_cons.mp hb with h1 | h1
      · subst h1
        exact Or.inl hek
      · have hxb : x.key < b.key ∨ (x.key = b.key ∧ x.seq < b.seq) := hx b h1
        have hxkb : x.key ≤ b.key := by
          rcases hxb with h2 | ⟨h2, _⟩
          · exact Nat.le_of_lt h2
          · exact Nat.le_of_eq h2
        exact Or.inl (Nat.lt_of_lt_of_le hek hxkb)

theorem schedInv_consume (s : SchedState) (id : Nat) (hinv : schedInv s) :
    schedInv (scx_bpf_consume s id).2 := by
  cases hact : s.deactivated with
  | true =>
    simp only [scx_bpf_consume, hact, if_true]
    exact hinv
  | false =>
    cases hq : findQ id s.queues with
    | none =>
      simp only [scx_bpf_consume, hact, Bool.false_eq_true, if_false, hq]
      exact hinv
    | some q =>
      cases hqe : q.entries with
      | nil =>
        simp only [scx_bpf_consume, hact, Bool.false_eq_true, if_false, hq, hqe]
        exact hinv
      | cons e rest =>
        have hcons : (scx_bpf_consume s id).2 =
            { s with
              queues := updateQueue id ({ q with entries := rest }) s.queues } := by
          simp [scx_bpf_consume, hact, hq, hqe]
        rw [hcons]
        intro p hp hmode
        rcases mem_updateQueue id _ s.queues p hp with h1 | h1
        · subst h1
          have hqmem := findQ_mem id s.queues q hq
          obtain ⟨hpw, hseq⟩ := hinv (id, q) hqmem hmode
          rw [hqe] at hpw hseq
          exact ⟨(List.pairwise_cons.mp hpw).2,
            fun b hb => hseq b (List.mem_cons_of_mem _ hb)⟩
        · exact hinv p h1 hmode

theorem schedInv_dispatch_vtime (s : SchedState)
    (id task slice key flags : Nat) (hinv : schedInv s) :
    ∀ s1, scx_bpf_dispatch_vtime s id task slice key flags = Except.ok s1 →
      schedInv s1 := by
  intro s1 hok
  cases hact : s.deactivated with
  | true => simp [scx_bpf_dispatch_vtime, hact] at hok
  | false =>
    cases hq : findQ id s.queues with
    | none => simp [scx_bpf_dispatch_vtime, hact, hq] at hok
    | some q =>
      cases hm : q.mode with
      | fifo => simp [scx_bpf_dispatch_vtime, hact, hq, hm] at hok
      | vtime =>
        have hs1 : s1 =
            { queues := updateQueue id
                { mode := QMode.vtime,
                  entries := insertVtime ⟨task, slice, flags, key, s.nextSeq⟩
                    q.entries }
                s.queues,
              deactivated := false,
              nextSeq := s.nextSeq + 1,
              fatalMsgs := s.fatalMsgs } := by
          simp [scx_bpf_dispatch_vtime, hact, hq, hm] at hok
          exact hok.symm
        subst hs1
        intro p hp hmode
        rcases mem_updateQueue id _ s.queues p hp with h1 | h1
        · subst h1
          have hqmem := findQ_mem id s.queues q hq
          obtain ⟨hpw, hseq⟩ := hinv (id, q) hqmem hm
          constructor
          · exact pairwise_insertVtime _ q.entries hpw hseq
          · intro b hb
            rcases mem_insertVtime _ b q.entries hb with h2 | h2
            · rw [h2]
              exact Nat.lt_succ_self _
            · exact Nat.lt_succ_of_lt (hseq b h2)
        · obtain ⟨hpw, hseq⟩ := hinv p h1 hmode
          exact ⟨hpw, fun b hb => Nat.lt_succ_of_lt (hseq b hb)⟩

/-- Modelled from the spec: the sequence of tasks yielded by `k` repeated
`consume(id)` calls — each call moves the queue's head to the local run
slot. -/
def drain (s : SchedState) (id : Nat) : Nat → List VEntry
  | 0 => []
  | k + 1 =>
    match consumedTask s id with
    | none => []
    | some e => e :: drain (scx_bpf_consume s id).2 id k

theorem drain_eq_take (id : Nat) :
    ∀ (k : Nat) (s : SchedState) (q : DispatchQueue),
      s.deactivated = false → findQ id s.queues = some q →
      drain s id k = q.entries.take k := by
  intro k
  induction k with
  | zero =>
    intro s q _ _
    simp [drain]
  | succ k ih =>
    intro s q hact hq
    cases hqe : q.entries with
    | nil =>
      simp [drain, consumedTask, hact, hq, hqe]
    | cons e rest =>
      have hct : consumedTask s id = some e := by
        simp [consumedTask, hact, hq, hqe]
      have hcons : scx_bpf_consume s id =
          (true,
            { s with
              queues := updateQueue id ({ q with entries := rest }) s.queues }) := by
        simp [scx_bpf_consume, hact, hq, hqe]
      have hq2 : findQ id (updateQueue id ({ q with entries := rest }) s.queues)
          = some { q with entries := rest } :=
        findQ_update_self id _ s.queues q hq
      simp only [drain, hct, hcons]
      rw [ih { s with queues := updateQueue id ({ q with entries := rest }) s.queues }
        { q with entries := rest } hact hq2]
      simp [hqe]

/-- The claim C3: virtual-time ordering.  The sorted-queue invariant is
preserved by `enqueue_vtime` and by `consume`, so it holds after every
operation on a vtime queue; and for a state satisfying it, `k` repeated
`consume` calls on a vtime-mode queue yield tasks in non-decreasing
vtime-key order with equal-key tasks in enqueue (arrival-sequence) order. -/
theorem vtime_queue_order (s : SchedState) (id task slice key flags k : Nat)
    (hinv : schedInv s) :
    (∀ s1, scx_bpf_dispatch_vtime s id task slice key flags = Except.ok s1 →
      schedInv s1) ∧
    schedInv (scx_bpf_consume s id).2 ∧
    (∀ q, s.deactivated = false → findQ id s.queues = some q →
      q.mode = QMode.vtime →
      (drain s id k).Pairwise
        (fun a b => a.key ≤ b.key ∧ (a.key = b.key → a.seq < b.seq))) := by
  refine ⟨schedInv_dispatch_vtime s id task slice key flags hinv,
    schedInv_consume s id hinv, ?_⟩
  intro q hact hq hm
  rw [drain_eq_take id k s q hact hq]
  have hqmem := findQ_mem id s.queues q hq
  obtain ⟨hpw, _⟩ := hinv (id, q) hqmem hm
  have hpw2 : (q.entries.take k).Pairwise entryLe :=
    hpw.sublist (List.take_sublist k q.entries)
  refine hpw2.imp ?_
  intro a b hab
  have hab2 : a.key < b.key ∨ (a.key = b.key ∧ a.seq < b.seq) := hab
  constructor
  · rcases hab2 with h | ⟨h, _⟩
    · exact Nat.le_of_lt h
    · exact Nat.le_of_eq h
  · intro hkeq
    rcases hab2 with h | ⟨_, h⟩
    · omega
    · exact h

/-- Concrete vtime state used by the C3 witness: queue 3 in vtime mode with
three entries, two sharing key 5 in arrival order. -/
def sv : SchedState :=
  { queues := [(3,
      { mode := QMode.vtime,
        entries := [⟨10, 100, 0, 5, 0⟩, ⟨11, 100, 0, 5, 1⟩, ⟨12, 100, 0, 9, 2⟩] })],
    deactivated := false,
    nextSeq := 3,
    fatalMsgs := [] }

/-- Witness for C3 on the concrete state `sv`: the invariant holds and
draining queue 3 with three consume calls yields the entries in
non-decreasing key order with the equal-key pair in enqueue order. -/
theorem vtime_queue_order_witness :
    (schedInv sv ∧ sv.deactivated = false ∧
      findQ 3 sv.queues = some
        { mode := QMode.vtime,
          entries := [⟨10, 100, 0, 5, 0⟩, ⟨11, 100, 0, 5, 1⟩, ⟨12, 100, 0, 9, 2⟩] }) ∧
    (drain sv 3 3).Pairwise
      (fun a b => a.key ≤ b.key ∧ (a.key = b.key → a.seq < b.seq)) :=
  ⟨⟨by decide, rfl, rfl⟩,
    (vtime_queue_order sv 3 0 0 0 0 3 (by decide)).2.2
      { mode := QMode.vtime,
        entries := [⟨10, 100, 0, 5, 0⟩, ⟨11, 100, 0, 5, 1⟩, ⟨12, 100, 0, 9, 2⟩] }
      rfl rfl rfl⟩
